import Mathlib

/-!
Shallow embedding of `python-task.py`: an in-memory key-value store with
nested transactions (a stack of dict layers with tombstones) plus the
line-oriented command interpreter around it, together with proofs of the
specified properties.
-/

set_option maxHeartbeats 1000000

namespace LayeredStore

/-- An entry stored in a layer: either a real string value, or the deleted
marker (the `DELETED = _DeletedMarker()` sentinel of the Python code). -/
inductive Entry where
  | real (v : String)
  | deleted
deriving DecidableEq

/-- One layer: a Python `dict[str, object]` mapping keys to entries,
modelled as an association list in insertion order with unique keys. -/
abbrev Layer := List (String × Entry)

/-- Python dict lookup `layer[key]` guarded by `key in layer`:
the first (in a dict: unique) binding of `key`, if any. -/
def dictGet : Layer → String → Option Entry
  | [], _ => none
  | (a, e) :: l, k => if a = k then some e else dictGet l k

/-- Python dict assignment `layer[key] = v`: overwrite the binding in place
(keeping its position in insertion order) when the key is already present,
otherwise append a new binding at the end. -/
def dictInsert : Layer → String → Entry → Layer
  | [], k, v => [(k, v)]
  | (a, e) :: l, k, v =>
    if a = k then (k, v) :: l else (a, e) :: dictInsert l k v

/-- `InMemoryDB.__init__`: the store starts with exactly one empty layer
(`self._layers = [dict()]`).  Throughout this embedding the HEAD of the list
is the TOP layer — the order in which `_iter_layers_top_down` visits the
Python list (which keeps the base at index 0 and the top at the end). -/
def initDB : List Layer := [[]]

/-- `InMemoryDB._effective_get`: scan the layers top-down and stop at the
first layer containing the key: `(False, None)` on the deleted marker,
`(True, value)` on a real value; `(False, None)` if no layer contains it. -/
def effective_get : List Layer → String → Bool × Option String
  | [], _ => (false, none)
  | layer :: rest, key =>
    match dictGet layer key with
    | some Entry.deleted => (false, none)
    | some (Entry.real v) => (true, some v)
    | none => effective_get rest key

/-- `InMemoryDB.get_value`: the effective value, or `None` when the key is
deleted or was never set. -/
def get_value (layers : List Layer) (key : String) : Option String :=
  let r := effective_get layers key
  if r.1 then r.2 else none

/-- `InMemoryDB.set_value`: `self._layers[-1][key] = value`, writing into the
top layer only.  (On an empty stack the Python indexing would raise; the
stack is never empty, see the stack-length invariant below.) -/
def set_value : List Layer → String → String → List Layer
  | [], _, _ => []
  | top :: rest, key, value => dictInsert top key (Entry.real value) :: rest

/-- `InMemoryDB.unset_value`: `self._layers[-1][key] = DELETED`, writing a
tombstone into the top layer only. -/
def unset_value : List Layer → String → List Layer
  | [], _ => []
  | top :: rest, key => dictInsert top key Entry.deleted :: rest

/-- `InMemoryDB.begin`: push a fresh empty layer on top of the stack. -/
def begin (layers : List Layer) : List Layer :=
  [] :: layers

/-- `InMemoryDB.rollback`: if only one layer exists return `False` and change
nothing; otherwise pop the top layer and return `True`. -/
def rollback (layers : List Layer) : Bool × List Layer :=
  if layers.length = 1 then (false, layers)
  else
    match layers with
    | [] => (false, [])
    | _ :: rest => (true, rest)

/-- `InMemoryDB.commit`: if only one layer exists return `False` and change
nothing; otherwise write every binding of the top layer into the layer below
(`below[k] = v` for each item), pop the top layer and return `True`. -/
def commit (layers : List Layer) : Bool × List Layer :=
  if layers.length = 1 then (false, layers)
  else
    match layers with
    | top :: below :: rest =>
      (true, (top.foldl (fun acc p => dictInsert acc p.1 p.2) below) :: rest)
    | _ => (false, layers)

/-- `InMemoryDB._all_keys`: the set of all keys appearing in any layer, as a
duplicate-free list.  (Python iterates this set in unspecified order; the
count and the sorted find result are the same for every order.) -/
def all_keys (layers : List Layer) : List String :=
  (layers.foldl (fun acc layer => acc ++ layer.map Prod.fst) []).dedup

/-- The loop-body test shared by `count_value` and `find_keys_by_value`:
`exists and eff == value` for the key's effective lookup. -/
def matchesValue (layers : List Layer) (value : String) (key : String) : Bool :=
  let r := effective_get layers key
  r.1 && (r.2 == some value)

/-- `InMemoryDB.count_value`: count the keys (over all layers) whose
effective value equals `value`. -/
def count_value (layers : List Layer) (value : String) : Nat :=
  (all_keys layers).countP (matchesValue layers value)

/-- `InMemoryDB.find_keys_by_value`: the keys (over all layers) whose
effective value equals `value`, sorted ascending (`found.sort()`). -/
def find_keys_by_value (layers : List Layer) (value : String) : List String :=
  List.insertionSort (· ≤ ·) ((all_keys layers).filter (matchesValue layers value))

-- Sanity checks of the embedding on concrete runs.
example : get_value (set_value initDB "a" "10") "a" = some "10" := by decide
example : get_value (unset_value (set_value initDB "a" "10") "a") "a" = none := by decide
example :
    get_value ((rollback (set_value (begin (set_value initDB "a" "10")) "a" "20")).2) "a"
      = some "10" := by decide
example : count_value (set_value (unset_value (set_value initDB "a" "10") "a") "b" "10") "10" = 1 := by
  decide
example : find_keys_by_value (set_value initDB "b" "10") "10" = ["b"] := rfl

/-! ### Dictionary lemmas -/

/-- Dict update then lookup: the inserted key reads back the new entry and
every other key is untouched. -/
theorem dictGet_dictInsert (l : Layer) (k : String) (v : Entry) (q : String) :
    dictGet (dictInsert l k v) q = if q = k then some v else dictGet l q := by
  induction l with
  | nil =>
    by_cases hq : q = k <;> simp [dictGet, dictInsert, hq, Ne.symm]
  | cons a l ih =>
    obtain ⟨b, e⟩ := a
    by_cases hb : b = k
    · by_cases hq : q = k
      · simp [dictGet, dictInsert, hb, hq]
      · have hk : ¬ k = q := fun h => hq h.symm
        have hbq : ¬ b = q := by rw [hb]; exact hk
        simp [dictGet, dictInsert, hb, hq, hk, hbq]
    · by_cases hbq : b = q
      · have hq : ¬ q = k := fun h => hb (hbq.trans h)
        simp [dictGet, dictInsert, hb, hbq, hq]
      · simp [dictGet, dictInsert, hb, hbq, ih]

/-- A key outside a layer's key set looks up to `none`. -/
theorem dictGet_eq_none_of_not_mem {l : Layer} {k : String}
    (h : k ∉ l.map Prod.fst) : dictGet l k = none := by
  induction l with
  | nil => rfl
  | cons a l ih =>
    obtain ⟨b, e⟩ := a
    simp only [List.map_cons, List.mem_cons] at h
    push_neg at h
    have hbk : ¬ b = k := fun hbk => h.1 hbk.symm
    simpa [dictGet, hbk] using ih h.2

/-- A successful lookup witnesses key membership. -/
theorem mem_keys_of_dictGet_eq_some {l : Layer} {k : String} {e : Entry}
    (h : dictGet l k = some e) : k ∈ l.map Prod.fst := by
  induction l with
  | nil => simp [dictGet] at h
  | cons a l ih =>
    obtain ⟨b, e'⟩ := a
    by_cases hb : b = k
    · simp [hb]
    · simp only [dictGet, if_neg hb] at h
      simpa using Or.inr (ih h)

/-! ### Effective-lookup lemmas -/

/-- The top-down scan skips every layer that does not contain the key. -/
theorem effective_get_append_of_none {pre : List Layer} {key : String}
    (h : ∀ l ∈ pre, dictGet l key = none) (post : List Layer) :
    effective_get (pre ++ post) key = effective_get post key := by
  induction pre with
  | nil => rfl
  | cons a pre ih =>
    have ha := h a (List.mem_cons_self a pre)
    rw [List.cons_append]
    simp only [effective_get, ha]
    exact ih (fun l hl => h l (List.mem_cons_of_mem a hl))

/-- The scan result is either a miss or a hit carrying a value. -/
theorem effective_get_shape (layers : List Layer) (key : String) :
    effective_get layers key = (false, none) ∨
      ∃ v, effective_get layers key = (true, some v) := by
  induction layers with
  | nil => exact Or.inl rfl
  | cons a rest ih =>
    cases hd : dictGet a key with
    | none => simpa [effective_get, hd] using ih
    | some e =>
      cases e with
      | real v => exact Or.inr ⟨v, by simp [effective_get, hd]⟩
      | deleted => exact Or.inl (by simp [effective_get, hd])

/-- `get_value` succeeds exactly when the scan hits a real value. -/
theorem get_value_eq_some_iff {layers : List Layer} {key v : String} :
    get_value layers key = some v ↔ effective_get layers key = (true, some v) := by
  unfold get_value
  rcases effective_get_shape layers key with h | ⟨w, h⟩ <;> simp [h]

/-! ### The claims about the store -/

/-- C1: `get` resolves a key through the topmost layer containing it: a real
value there is returned; a tombstone there (in particular immediately after
`unset`, whatever lower layers hold) and a key contained in no layer both
read as absent.  `get_value` is a pure function of the stack, so it mutates
nothing by construction. -/
theorem get_resolves_topmost (key : String) :
    (∀ pre layer post, (∀ l ∈ pre, dictGet l key = none) →
      (∀ v, dictGet layer key = some (Entry.real v) →
        get_value (pre ++ layer :: post) key = some v) ∧
      (dictGet layer key = some Entry.deleted →
        get_value (pre ++ layer :: post) key = none)) ∧
    (∀ layers, (∀ l ∈ layers, dictGet l key = none) →
      get_value layers key = none) ∧
    (∀ top rest, get_value (unset_value (top :: rest) key) key = none) := by
  refine ⟨fun pre layer post hpre => ⟨fun v hv => ?_, fun hd => ?_⟩, fun layers h => ?_, ?_⟩
  · unfold get_value
    rw [effective_get_append_of_none hpre]
    simp [effective_get, hv]
  · unfold get_value
    rw [effective_get_append_of_none hpre]
    simp [effective_get, hd]
  · unfold get_value
    have happ := effective_get_append_of_none h ([] : List Layer)
    rw [List.append_nil] at happ
    simp [happ, effective_get]
  · intro top rest
    unfold get_value unset_value
    simp [effective_get, dictGet_dictInsert]

/-- C1 witness: a lower real value is shadowed by a higher real value, by a
higher tombstone, and by a fresh `unset`; an untouched key reads absent. -/
theorem get_resolves_topmost_witness :
    get_value [[("a", Entry.real "1")], [("a", Entry.real "2")]] "a" = some "1" ∧
    get_value [[("a", Entry.deleted)], [("a", Entry.real "2")]] "a" = none ∧
    get_value [[], [("b", Entry.real "2")]] "a" = none ∧
    get_value (unset_value [[("a", Entry.real "2")]] "a") "a" = none :=
  ⟨((get_resolves_topmost "a").1 [] [("a", Entry.real "1")] [[("a", Entry.real "2")]]
      (by intro l hl; simp at hl)).1 "1" (by decide),
   ((get_resolves_topmost "a").1 [] [("a", Entry.deleted)] [[("a", Entry.real "2")]]
      (by intro l hl; simp at hl)).2 (by decide),
   (get_resolves_topmost "a").2.1 [[], [("b", Entry.real "2")]] (by decide),
   (get_resolves_topmost "a").2.2 [("a", Entry.real "2")] []⟩

/-- C3: at base level (exactly one layer) `rollback` and `commit` both
return `False`, leave the stack unchanged, and hence leave every key's
effective value unchanged. -/
theorem rollback_commit_base_noop (base : Layer) :
    rollback [base] = (false, [base]) ∧ commit [base] = (false, [base]) ∧
    (∀ k, get_value (rollback [base]).2 k = get_value [base] k) ∧
    (∀ k, get_value (commit [base]).2 k = get_value [base] k) := by
  have h1 : rollback [base] = (false, [base]) := by simp [rollback]
  have h2 : commit [base] = (false, [base]) := by simp [commit]
  exact ⟨h1, h2, fun k => by rw [h1], fun k => by rw [h2]⟩

/-- C4: `begin` immediately followed by `rollback` returns the stack to
exactly the state before `begin`, so every key's effective value is
restored. -/
theorem begin_rollback_restores (layers : List Layer) (h : layers ≠ []) :
    rollback (begin layers) = (true, layers) ∧
    ∀ k, get_value (rollback (begin layers)).2 k = get_value layers k := by
  have h1 : rollback (begin layers) = (true, layers) := by
    unfold begin rollback
    cases layers with
    | nil => exact absurd rfl h
    | cons a rest => simp
  exact ⟨h1, fun k => by rw [h1]⟩

/-- C4 witness at a one-layer stack holding one key. -/
theorem begin_rollback_restores_witness :
    rollback (begin [[("a", Entry.real "1")]]) = (true, [[("a", Entry.real "1")]]) :=
  (begin_rollback_restores [[("a", Entry.real "1")]] (by decide)).1

/-- C5: `begin; set k v; commit` produces literally the same stack as a
plain `set k v` on the original state, hence the same effective value for
every key. -/
theorem begin_set_commit_eq_set (below : Layer) (rest : List Layer) (k v : String) :
    commit (set_value (begin (below :: rest)) k v)
        = (true, set_value (below :: rest) k v) ∧
    ∀ q, get_value (commit (set_value (begin (below :: rest)) k v)).2 q
        = get_value (set_value (below :: rest) k v) q := by
  have h1 : commit (set_value (begin (below :: rest)) k v)
      = (true, set_value (below :: rest) k v) := by
    unfold begin set_value commit dictInsert
    simp
  exact ⟨h1, fun q => by rw [h1]⟩

/-- `commit`'s merge loop: after folding the top layer's bindings into the
layer below, a key reads its top entry when the top layer has one and its
entry below otherwise.  (A Python dict has unique keys.) -/
theorem dictGet_foldl_insert (top : Layer) (hkeys : (top.map Prod.fst).Nodup)
    (below : Layer) (k : String) :
    dictGet (top.foldl (fun acc p => dictInsert acc p.1 p.2) below) k =
      match dictGet top k with
      | some e => some e
      | none => dictGet below k := by
  induction top generalizing below with
  | nil => simp [dictGet]
  | cons a t ih =>
    obtain ⟨b, e⟩ := a
    simp only [List.map_cons, List.nodup_cons] at hkeys
    obtain ⟨hb, hnd⟩ := hkeys
    rw [List.foldl_cons, ih hnd]
    by_cases hk : k = b
    · have ht : dictGet t b = none := by
        have := dictGet_eq_none_of_not_mem (hk ▸ hb)
        rwa [hk] at this
      simp [dictGet, ht, hk, dictGet_dictInsert]
    · have hb' : ¬ b = k := fun h => hk h.symm
      simp only [dictGet, if_neg hb', dictGet_dictInsert, if_neg hk]

/-- Keys after an update: the inserted key plus the old keys. -/
theorem mem_keys_dictInsert {l : Layer} {k : String} {v : Entry} {q : String} :
    q ∈ (dictInsert l k v).map Prod.fst ↔ q = k ∨ q ∈ l.map Prod.fst := by
  induction l with
  | nil => simp [dictInsert]
  | cons a l ih =>
    obtain ⟨b, e⟩ := a
    by_cases hb : b = k
    · subst hb
      simp [dictInsert]
    · simp [dictInsert, hb, ih]
      tauto

/-- A dict update keeps the keys unique. -/
theorem dictInsert_keys_nodup {l : Layer} {k : String} {v : Entry}
    (h : (l.map Prod.fst).Nodup) : ((dictInsert l k v).map Prod.fst).Nodup := by
  induction l with
  | nil => simp [dictInsert]
  | cons a l ih =>
    obtain ⟨b, e⟩ := a
    simp only [List.map_cons, List.nodup_cons] at h
    obtain ⟨hb, hnd⟩ := h
    by_cases hbk : b = k
    · have hins : dictInsert ((b, e) :: l) k v = (k, v) :: l := by simp [dictInsert, hbk]
      rw [hins, List.map_cons, List.nodup_cons]
      exact ⟨hbk ▸ hb, hnd⟩
    · simp only [dictInsert, if_neg hbk, List.map_cons, List.nodup_cons]
      refine ⟨fun hmem => ?_, ih hnd⟩
      rcases mem_keys_dictInsert.mp hmem with h | h
      · exact hbk h
      · exact hb h

/-- Well-formedness of a store state: every layer is a Python dict, so its
keys are unique. -/
def WF (layers : List Layer) : Prop :=
  ∀ layer ∈ layers, (layer.map Prod.fst).Nodup

/-- Every reachable store state is well-formed: the initial store is, and
every mutating operation preserves it.  (This discharges the key-uniqueness
hypothesis of the `commit` theorem on every reachable state.) -/
theorem WF_preserved :
    WF initDB ∧
    (∀ layers k v, WF layers → WF (set_value layers k v)) ∧
    (∀ layers k, WF layers → WF (unset_value layers k)) ∧
    (∀ layers, WF layers → WF (begin layers)) ∧
    (∀ layers, WF layers → WF (rollback layers).2) ∧
    (∀ layers, WF layers → WF (commit layers).2) := by
  have hmerge : ∀ (top below : Layer), (below.map Prod.fst).Nodup →
      (((top.foldl (fun acc p => dictInsert acc p.1 p.2) below).map Prod.fst)).Nodup := by
    intro top
    induction top with
    | nil => intro below h; simpa using h
    | cons a t ih =>
      intro below h
      rw [List.foldl_cons]
      exact ih _ (dictInsert_keys_nodup h)
  refine ⟨?_, ?_, ?_, ?_, ?_, ?_⟩
  · intro layer hl
    simp [initDB] at hl
    simp [hl]
  · intro layers k v h layer hl
    cases layers with
    | nil => simp [set_value] at hl
    | cons top rest =>
      simp only [set_value, List.mem_cons] at hl
      rcases hl with rfl | hl
      · exact dictInsert_keys_nodup (h top (List.mem_cons_self top rest))
      · exact h layer (List.mem_cons_of_mem top hl)
  · intro layers k h layer hl
    cases layers with
    | nil => simp [unset_value] at hl
    | cons top rest =>
      simp only [unset_value, List.mem_cons] at hl
      rcases hl with rfl | hl
      · exact dictInsert_keys_nodup (h top (List.mem_cons_self top rest))
      · exact h layer (List.mem_cons_of_mem top hl)
  · intro layers h layer hl
    simp only [begin, List.mem_cons] at hl
    rcases hl with rfl | hl
    · simp
    · exact h layer hl
  · intro layers h layer hl
    unfold rollback at hl
    by_cases h1 : layers.length = 1
    · rw [if_pos h1] at hl
      exact h layer hl
    · rw [if_neg h1] at hl
      cases layers with
      | nil => simp at hl
      | cons top rest => exact h layer (List.mem_cons_of_mem top hl)
  · intro layers h layer hl
    unfold commit at hl
    by_cases h1 : layers.length = 1
    · rw [if_pos h1] at hl
      exact h layer hl
    · rw [if_neg h1] at hl
      cases layers with
      | nil => exact h layer hl
      | cons top rest =>
        cases rest with
        | nil => exact h layer hl
        | cons below rest' =>
          simp only [List.mem_cons] at hl
          rcases hl with rfl | hl
          · exact hmerge top below (h below (by simp))
          · exact h layer (by simp [hl])

/-- C2: with at least two layers, `commit` writes every binding of the top
layer into the layer below — overwriting same-key entries there, tombstones
propagating exactly like real values, entries below whose keys are absent
from the top layer staying untouched — then removes the top layer and
returns `True`. -/
theorem commit_merges_top_into_below (top below : Layer) (rest : List Layer)
    (hkeys : (top.map Prod.fst).Nodup) :
    ∃ merged, commit (top :: below :: rest) = (true, merged :: rest) ∧
      ∀ k, dictGet merged k =
        match dictGet top k with
        | some e => some e
        | none => dictGet below k := by
  refine ⟨top.foldl (fun acc p => dictInsert acc p.1 p.2) below, ?_, ?_⟩
  · unfold commit
    simp
  · exact dictGet_foldl_insert top hkeys below

/-- C2 witness: a tombstone and a real value both propagate over the layer
below, whose untouched key keeps its entry. -/
theorem commit_merges_top_into_below_witness :
    ∃ merged,
      commit [[("a", Entry.deleted), ("b", Entry.real "2")],
              [("a", Entry.real "1"), ("c", Entry.real "3")]]
        = (true, [merged]) ∧
      ∀ k, dictGet merged k =
        match dictGet [("a", Entry.deleted), ("b", Entry.real "2")] k with
        | some e => some e
        | none => dictGet [("a", Entry.real "1"), ("c", Entry.real "3")] k :=
  commit_merges_top_into_below
    [("a", Entry.deleted), ("b", Entry.real "2")]
    [("a", Entry.real "1"), ("c", Entry.real "3")] [] (by decide)

/-- C8: the stack-length invariant: the store is created with exactly one
layer, `begin` pushes exactly one, `set`/`unset` do not change the count,
`rollback`/`commit` refuse (returning `False`, stack untouched) at one layer
and otherwise pop exactly one — so the length stays ≥ 1 forever. -/
theorem layer_stack_invariant :
    initDB.length = 1 ∧
    (∀ layers, (begin layers).length = layers.length + 1) ∧
    (∀ layers k v, (set_value layers k v).length = layers.length) ∧
    (∀ layers k, (unset_value layers k).length = layers.length) ∧
    (∀ base, rollback [base] = (false, [base]) ∧ commit [base] = (false, [base])) ∧
    (∀ layers, 2 ≤ layers.length →
      (rollback layers).1 = true ∧ (rollback layers).2.length + 1 = layers.length ∧
      (commit layers).1 = true ∧ (commit layers).2.length + 1 = layers.length) ∧
    (∀ layers k v, 1 ≤ layers.length →
      1 ≤ (begin layers).length ∧ 1 ≤ (set_value layers k v).length ∧
      1 ≤ (unset_value layers k).length ∧
      1 ≤ (rollback layers).2.length ∧ 1 ≤ (commit layers).2.length) := by
  have hset : ∀ layers (k v : String), (set_value layers k v).length = layers.length := by
    intro layers k v
    cases layers <;> simp [set_value]
  have hunset : ∀ layers (k : String), (unset_value layers k).length = layers.length := by
    intro layers k
    cases layers <;> simp [unset_value]
  have hpop : ∀ layers : List Layer, 2 ≤ layers.length →
      (rollback layers).1 = true ∧ (rollback layers).2.length + 1 = layers.length ∧
      (commit layers).1 = true ∧ (commit layers).2.length + 1 = layers.length := by
    intro layers hlen
    match layers with
    | top :: next :: rest =>
      refine ⟨?_, ?_, ?_, ?_⟩ <;> simp [rollback, commit]
  refine ⟨rfl, fun layers => rfl, hset, hunset,
    fun base => ⟨by simp [rollback], by simp [commit]⟩, hpop, ?_⟩
  intro layers k v hlen
  refine ⟨by simp only [begin, List.length_cons]; omega,
    by rw [hset]; exact hlen, by rw [hunset]; exact hlen, ?_, ?_⟩
  · cases layers with
    | nil => simp at hlen
    | cons a rest =>
      cases rest with
      | nil => simp [rollback]
      | cons b rest' => simp [rollback]
  · cases layers with
    | nil => simp at hlen
    | cons a rest =>
      cases rest with
      | nil => simp [commit]
      | cons b rest' => simp [commit]

/-! ### Reverse-lookup lemmas and claims -/

/-- Membership in the key-union accumulator of `_all_keys`. -/
theorem mem_foldl_keys (L : List Layer) (init : List String) (k : String) :
    k ∈ L.foldl (fun acc layer => acc ++ layer.map Prod.fst) init ↔
      k ∈ init ∨ ∃ layer ∈ L, k ∈ layer.map Prod.fst := by
  induction L generalizing init with
  | nil => simp
  | cons a L ih =>
    rw [List.foldl_cons, ih]
    simp [List.mem_append, or_assoc]

/-- A key is in `_all_keys` exactly when some layer contains it. -/
theorem mem_all_keys {layers : List Layer} {k : String} :
    k ∈ all_keys layers ↔ ∃ layer ∈ layers, k ∈ layer.map Prod.fst := by
  unfold all_keys
  rw [List.mem_dedup, mem_foldl_keys]
  simp

/-- A hit of the top-down scan exhibits a layer containing the key. -/
theorem exists_layer_of_hit {layers : List Layer} {k v : String}
    (h : effective_get layers k = (true, some v)) :
    ∃ layer ∈ layers, k ∈ layer.map Prod.fst := by
  induction layers with
  | nil => simp [effective_get] at h
  | cons a rest ih =>
    cases hd : dictGet a k with
    | none =>
      simp only [effective_get, hd] at h
      obtain ⟨layer, hm, hk⟩ := ih h
      exact ⟨layer, List.mem_cons_of_mem a hm, hk⟩
    | some e =>
      cases e with
      | real w => exact ⟨a, List.mem_cons_self a rest, mem_keys_of_dictGet_eq_some hd⟩
      | deleted => simp [effective_get, hd] at h

/-- C7: `findByValue` returns exactly the keys whose effective value (per
`get`'s top-down rule) equals the requested value — candidates being the
union of key sets over all layers — as a strictly ascending, duplicate-free
sequence. -/
theorem find_keys_by_value_spec (layers : List Layer) (v : String) :
    (∀ k, k ∈ find_keys_by_value layers v ↔ get_value layers k = some v) ∧
    (find_keys_by_value layers v).Sorted (· < ·) ∧
    (find_keys_by_value layers v).Nodup := by
  have hnd : (find_keys_by_value layers v).Nodup := by
    unfold find_keys_by_value
    exact ((List.perm_insertionSort _ _).nodup_iff).mpr
      (List.Nodup.filter _ (List.nodup_dedup _))
  refine ⟨?_, ?_, hnd⟩
  · intro k
    unfold find_keys_by_value
    rw [List.mem_insertionSort, List.mem_filter]
    constructor
    · rintro ⟨hmem, hmatch⟩
      rcases effective_get_shape layers k with h | ⟨w, h⟩
      · rw [matchesValue, h] at hmatch
        simp at hmatch
      · rw [matchesValue, h] at hmatch
        simp at hmatch
        exact get_value_eq_some_iff.mpr (by rw [h, hmatch])
    · intro hget
      have h := get_value_eq_some_iff.mp hget
      refine ⟨mem_all_keys.mpr (exists_layer_of_hit h), ?_⟩
      rw [matchesValue, h]
      simp
  · unfold find_keys_by_value
    exact List.Sorted.lt_of_le (List.sorted_insertionSort _ _) hnd

/-- C6: `countByValue` equals the length of `findByValue`: both filter the
same candidate keys through the same effective-value test. -/
theorem count_value_eq_find_length (layers : List Layer) (v : String) :
    count_value layers v = (find_keys_by_value layers v).length := by
  unfold count_value find_keys_by_value
  rw [List.length_insertionSort]
  exact List.countP_eq_length_filter _ _

/-- C8 witness: a two-layer stack pops to one layer under both `rollback`
and `commit`, and a one-layer stack stays at one layer. -/
theorem layer_stack_invariant_witness :
    (rollback [[], []]).1 = true ∧ (rollback [[], []]).2.length + 1 = 2 ∧
    1 ≤ (commit [[("a", Entry.real "1")]]).2.length :=
  ⟨(layer_stack_invariant.2.2.2.2.2.1 [[], []] (by decide)).1,
   (layer_stack_invariant.2.2.2.2.2.1 [[], []] (by decide)).2.1,
   (layer_stack_invariant.2.2.2.2.2.2 [[("a", Entry.real "1")]] "a" "1" (by decide)).2.2.2.2⟩

/-! ### The command interpreter (body of the `main` REPL loop) -/

/-- Python `str.strip()`: drop leading and trailing whitespace. -/
def pyStrip (s : String) : String :=
  String.mk (((s.data.dropWhile Char.isWhitespace).reverse.dropWhile
    Char.isWhitespace).reverse)

/-- Helper of `pySplit`: scan the characters, accumulating the current word
in reverse. -/
def wordsAux : List Char → List Char → List String
  | [], acc => if acc.isEmpty then [] else [String.mk acc.reverse]
  | c :: cs, acc =>
    if c.isWhitespace then
      if acc.isEmpty then wordsAux cs [] else String.mk acc.reverse :: wordsAux cs []
    else wordsAux cs (c :: acc)

/-- Python `str.split()` without separator: split on whitespace runs,
producing no empty tokens. -/
def pySplit (s : String) : List String :=
  wordsAux s.data []

/-- Python `str.upper()`. -/
def pyUpper (s : String) : String :=
  String.mk (s.data.map Char.toUpper)

/-- A command handler: from the store and the argument list to (accepted?,
new store, printed lines).  `False` means a wrong argument count, in which
case the handler returned before touching the store or printing. -/
abbrev Handler := List Layer → List String → Bool × List Layer × List String

/-- `handle_set`: `SET key value`. -/
def handle_set : Handler := fun db args =>
  match args with
  | [k, v] => (true, set_value db k v, [])
  | _ => (false, db, [])

/-- `handle_get`: `GET key` — print the value, or `NULL` when absent. -/
def handle_get : Handler := fun db args =>
  match args with
  | [k] => (true, db, [match get_value db k with | some v => v | none => "NULL"])
  | _ => (false, db, [])

/-- `handle_unset`: `UNSET key`. -/
def handle_unset : Handler := fun db args =>
  match args with
  | [k] => (true, unset_value db k, [])
  | _ => (false, db, [])

/-- `handle_counts`: `COUNTS value` — print the count. -/
def handle_counts : Handler := fun db args =>
  match args with
  | [v] => (true, db, [toString (count_value db v)])
  | _ => (false, db, [])

/-- `handle_find`: `FIND value` — print the matching keys space-joined. -/
def handle_find : Handler := fun db args =>
  match args with
  | [v] => (true, db, [String.intercalate " " (find_keys_by_value db v)])
  | _ => (false, db, [])

/-- `handle_begin`: `BEGIN`. -/
def handle_begin : Handler := fun db args =>
  match args with
  | [] => (true, begin db, [])
  | _ => (false, db, [])

/-- `handle_rollback`: `ROLLBACK` — print `NO TRANSACTION` when the core
reports no open transaction. -/
def handle_rollback : Handler := fun db args =>
  match args with
  | [] =>
    let r := rollback db
    (true, r.2, if r.1 then [] else ["NO TRANSACTION"])
  | _ => (false, db, [])

/-- `handle_commit`: `COMMIT` — print `NO TRANSACTION` when the core
reports no open transaction. -/
def handle_commit : Handler := fun db args =>
  match args with
  | [] =>
    let r := commit db
    (true, r.2, if r.1 then [] else ["NO TRANSACTION"])
  | _ => (false, db, [])

/-- The `COMMANDS` dispatch table. -/
def COMMANDS (cmd : String) : Option Handler :=
  if cmd = "SET" then some handle_set
  else if cmd = "GET" then some handle_get
  else if cmd = "UNSET" then some handle_unset
  else if cmd = "COUNTS" then some handle_counts
  else if cmd = "FIND" then some handle_find
  else if cmd = "BEGIN" then some handle_begin
  else if cmd = "ROLLBACK" then some handle_rollback
  else if cmd = "COMMIT" then some handle_commit
  else none

/-- One iteration of the `main` REPL loop: strip the line; skip it when
blank; uppercase the first token; terminate with exit code 0 on `END`;
otherwise dispatch, printing `ERROR` when the command name is unknown or
its handler rejects the argument count.  Returns the new store, the printed
lines, and the exit code when the session ends on this line. -/
def processLine (db : List Layer) (line : String) :
    List Layer × List String × Option Nat :=
  let stripped := pyStrip line
  if stripped = "" then (db, [], none)
  else
    match pySplit stripped with
    | [] => (db, [], none)
    | cmdName :: parts =>
      let cmd := pyUpper cmdName
      if cmd = "END" then (db, [], some 0)
      else
        match COMMANDS cmd with
        | none => (db, ["ERROR"], none)
        | some handler =>
          let r := handler db parts
          if r.1 then (r.2.1, r.2.2, none) else (r.2.1, r.2.2 ++ ["ERROR"], none)

-- Sanity checks of the interpreter on the spec's end-to-end session.
example : processLine initDB "SET a 10" = ([[("a", Entry.real "10")]], [], none) := by decide
example : processLine [[("a", Entry.real "10")]] "GET a"
    = ([[("a", Entry.real "10")]], ["10"], none) := by decide
example : processLine initDB "FOO x" = (initDB, ["ERROR"], none) := by decide
example : processLine initDB "rollback" = (initDB, ["NO TRANSACTION"], none) := by decide
example : processLine initDB "END" = (initDB, [], some 0) := by decide

/-- C10: a line that strips to the empty string prints nothing, invokes no
core operation, leaves the store unchanged, and does not terminate the
session (the loop just reads the next line). -/
theorem blank_line_noop (db : List Layer) (line : String)
    (h : pyStrip line = "") :
    processLine db line = (db, [], none) := by
  unfold processLine
  simp [h]

/-- C10 witness on a whitespace-only line. -/
theorem blank_line_noop_witness :
    processLine initDB "  " = (initDB, [], none) :=
  blank_line_noop initDB "  " (by decide)

/-- Dispatch form of `processLine` on a non-blank line whose first token
does not uppercase to `END`. -/
theorem processLine_dispatch (db : List Layer) (line cmdName : String)
    (parts : List String)
    (hne : ¬ pyStrip line = "")
    (hs : pySplit (pyStrip line) = cmdName :: parts)
    (hcmd : ¬ pyUpper cmdName = "END") :
    processLine db line =
      match COMMANDS (pyUpper cmdName) with
      | none => (db, ["ERROR"], none)
      | some handler =>
        let r := handler db parts
        if r.1 then (r.2.1, r.2.2, none) else (r.2.1, r.2.2 ++ ["ERROR"], none) := by
  unfold processLine
  rw [if_neg hne, hs]
  simp only [if_neg hcmd]

/-- `handle_set` rejects any argument count other than 2 without touching
the store or printing. -/
theorem handle_set_reject (db : List Layer) (parts : List String)
    (h : parts.length ≠ 2) : handle_set db parts = (false, db, []) := by
  cases parts with
  | nil => rfl
  | cons a t =>
    cases t with
    | nil => rfl
    | cons b t2 =>
      cases t2 with
      | nil => exact absurd rfl h
      | cons c t3 => rfl

/-- The four one-argument handlers reject any other argument count without
touching the store or printing. -/
theorem handle_one_arg_reject (db : List Layer) (parts : List String)
    (h : parts.length ≠ 1) :
    handle_get db parts = (false, db, []) ∧
    handle_unset db parts = (false, db, []) ∧
    handle_counts db parts = (false, db, []) ∧
    handle_find db parts = (false, db, []) := by
  cases parts with
  | nil => exact ⟨rfl, rfl, rfl, rfl⟩
  | cons a t =>
    cases t with
    | nil => exact absurd rfl h
    | cons b t2 => exact ⟨rfl, rfl, rfl, rfl⟩

/-- The three zero-argument handlers reject any nonempty argument list
without touching the store or printing. -/
theorem handle_zero_arg_reject (db : List Layer) (parts : List String)
    (h : parts ≠ []) :
    handle_begin db parts = (false, db, []) ∧
    handle_rollback db parts = (false, db, []) ∧
    handle_commit db parts = (false, db, []) := by
  cases parts with
  | nil => exact absurd rfl h
  | cons a t => exact ⟨rfl, rfl, rfl⟩

/-- C9 (amended): when the first token of a non-blank line uppercases to a
table command other than `END` but the argument count differs from the
table, or to a name outside the table, the interpreter prints exactly
`ERROR`, invokes no core operation and leaves the store unchanged; a first
token uppercasing to `END` instead terminates the session with exit code 0
and prints nothing regardless of its argument count, because `main` checks
for `END` before any argument validation. -/
theorem malformed_line_prints_error (db : List Layer) (line cmdName : String)
    (parts : List String)
    (hne : ¬ pyStrip line = "")
    (hs : pySplit (pyStrip line) = cmdName :: parts) :
    (pyUpper cmdName = "END" → processLine db line = (db, [], some 0)) ∧
    (((pyUpper cmdName = "SET" ∧ parts.length ≠ 2) ∨
      (pyUpper cmdName = "GET" ∧ parts.length ≠ 1) ∨
      (pyUpper cmdName = "UNSET" ∧ parts.length ≠ 1) ∨
      (pyUpper cmdName = "COUNTS" ∧ parts.length ≠ 1) ∨
      (pyUpper cmdName = "FIND" ∧ parts.length ≠ 1) ∨
      (pyUpper cmdName = "BEGIN" ∧ parts ≠ []) ∨
      (pyUpper cmdName = "ROLLBACK" ∧ parts ≠ []) ∨
      (pyUpper cmdName = "COMMIT" ∧ parts ≠ []) ∨
      (COMMANDS (pyUpper cmdName) = none ∧ pyUpper cmdName ≠ "END")) →
      processLine db line = (db, ["ERROR"], none)) := by
  constructor
  · intro hEnd
    unfold processLine
    rw [if_neg hne, hs]
    simp only [if_pos hEnd]
  · intro hbad
    rcases hbad with ⟨hc, hl⟩ | ⟨hc, hl⟩ | ⟨hc, hl⟩ | ⟨hc, hl⟩ | ⟨hc, hl⟩ |
      ⟨hc, hl⟩ | ⟨hc, hl⟩ | ⟨hc, hl⟩ | ⟨hc, hl⟩
    · rw [processLine_dispatch db line cmdName parts hne hs (by rw [hc]; decide), hc,
        show COMMANDS "SET" = some handle_set from rfl]
      simp [handle_set_reject db parts hl]
    · rw [processLine_dispatch db line cmdName parts hne hs (by rw [hc]; decide), hc,
        show COMMANDS "GET" = some handle_get from rfl]
      simp [(handle_one_arg_reject db parts hl).1]
    · rw [processLine_dispatch db line cmdName parts hne hs (by rw [hc]; decide), hc,
        show COMMANDS "UNSET" = some handle_unset from rfl]
      simp [(handle_one_arg_reject db parts hl).2.1]
    · rw [processLine_dispatch db line cmdName parts hne hs (by rw [hc]; decide), hc,
        show COMMANDS "COUNTS" = some handle_counts from rfl]
      simp [(handle_one_arg_reject db parts hl).2.2.1]
    · rw [processLine_dispatch db line cmdName parts hne hs (by rw [hc]; decide), hc,
        show COMMANDS "FIND" = some handle_find from rfl]
      simp [(handle_one_arg_reject db parts hl).2.2.2]
    · rw [processLine_dispatch db line cmdName parts hne hs (by rw [hc]; decide), hc,
        show COMMANDS "BEGIN" = some handle_begin from rfl]
      simp [(handle_zero_arg_reject db parts hl).1]
    · rw [processLine_dispatch db line cmdName parts hne hs (by rw [hc]; decide), hc,
        show COMMANDS "ROLLBACK" = some handle_rollback from rfl]
      simp [(handle_zero_arg_reject db parts hl).2.1]
    · rw [processLine_dispatch db line cmdName parts hne hs (by rw [hc]; decide), hc,
        show COMMANDS "COMMIT" = some handle_commit from rfl]
      simp [(handle_zero_arg_reject db parts hl).2.2]
    · rw [processLine_dispatch db line cmdName parts hne hs hl, hc]

/-- C9 witness: `GET` without arguments prints `ERROR` and changes nothing;
`END x` terminates with exit code 0 and prints nothing. -/
theorem malformed_line_prints_error_witness :
    processLine initDB "GET" = (initDB, ["ERROR"], none) ∧
    processLine initDB "END x" = (initDB, [], some 0) :=
  ⟨(malformed_line_prints_error initDB "GET" "GET" [] (by decide) (by decide)).2
      (Or.inr (Or.inl ⟨by decide, by decide⟩)),
   (malformed_line_prints_error initDB "END x" "END" ["x"] (by decide) (by decide)).1
      (by decide)⟩

/-- C9 counterexample: on the line `END x` — `END` with one argument, while
the table lists `END` with zero arguments — the interpreter does not print
`ERROR`; it prints nothing and terminates the session with exit code 0,
because `main` checks for `END` before validating argument counts. -/
theorem end_with_argument_not_error :
    processLine initDB "END x" = (initDB, [], some 0) ∧
    (processLine initDB "END x").2.1 ≠ ["ERROR"] := by
  constructor <;> decide

end LayeredStore
